import Mathlib

/-!
Shallow embedding of `gseapy/stats.py`.

Conventions of the embedding:
* `float` values flowing through the correction pipeline are modelled as `ℚ`;
  a `NaN` entry of a numpy float array is modelled as `none : Option ℚ`, a
  numeric entry `v` as `some v`.  Numpy booleans written into a float array
  become `some 1` / `some 0` (numpy casts `True`/`False` to `1.0`/`0.0`).
* numpy arrays are modelled as `List`s, elementwise operations as `map`/`zip`.
* Python's `raise ValueError(method)` is modelled with `Except String`.
* Python `set`s are modelled as deduplicated lists; `dict`s as association
  lists with unique keys (`dictGet` mirrors `dict.get`).
-/

namespace GseapyStats

/-- Running minimum from the left: `minAccum l` has the same length as `l`
and its `i`-th entry is the minimum of `l[0..i]`, mirroring
`np.minimum.accumulate`. -/
def minAccum : List ℚ → List ℚ
  | [] => []
  | x :: xs => x :: (minAccum xs).map (fun y => min x y)

/-- Largest index at which the boolean list holds `true` (`0` if none),
mirroring `max(np.nonzero(reject)[0])` on a nonempty index set. -/
def maxTrueIdx (bs : List Bool) : ℕ :=
  ((List.range bs.length).filter (fun i => bs.getD i false)).foldr max 0

/-- Fancy-index assignment `out[ind[i]] = vals[i]` for `ind` a permutation of
`range n`: position `j` of the output receives `vals` at the position of `j`
inside `ind`.  Mirrors `pvals_corrected_[pvals_sortind] = pvals_corrected`. -/
def scatter {α : Type} (d : α) (n : ℕ) (ind : List ℕ) (vals : List α) : List α :=
  (List.range n).map (fun j => vals.getD (ind.indexOf j) d)

/-- `np.argsort(pvals)`: the list of indices of `pvals` reordered so that the
corresponding values are non-decreasing (numpy's default quicksort fixes no
order among tied values; insertion sort is one faithful realization). -/
def argsort (pvals : List ℚ) : List ℕ :=
  (List.range pvals.length).insertionSort (fun i j => pvals.getD i 0 ≤ pvals.getD j 0)

/-- `pvals_sorted = np.take(pvals, pvals_sortind)`. -/
def sortedPvals (pvals : List ℚ) : List ℚ :=
  (argsort pvals).map (fun i => pvals.getD i 0)

/-- `_ecdf(x) = np.arange(1, nobs+1)/float(nobs)` where `nobs = len(x)`. -/
def ecdfList (x : List ℚ) : List ℚ :=
  (List.range x.length).map (fun i : ℕ => ((i : ℚ) + 1) / (x.length : ℚ))

/-- `reject = pvals_sorted <= ecdffactor*alpha` (elementwise, on the sorted
p-values). -/
def provisionalReject (pvals : List ℚ) (alpha : ℚ) : List Bool :=
  ((sortedPvals pvals).zip (ecdfList (sortedPvals pvals))).map
    (fun pe => decide (pe.1 ≤ pe.2 * alpha))

/-- The step-up fix: `if reject.any(): rejectmax = max(np.nonzero(reject)[0]);
reject[:rejectmax] = True`. -/
def stepUpReject (pvals : List ℚ) (alpha : ℚ) : List Bool :=
  let reject := provisionalReject pvals alpha
  if reject.any (fun b => b) then
    let rejectmax := maxTrueIdx reject
    (List.range reject.length).map (fun i => if i < rejectmax then true else reject.getD i false)
  else reject

/-- `pvals_corrected_raw = pvals_sorted / ecdffactor` (elementwise). -/
def rawCorrected (pvals : List ℚ) : List ℚ :=
  ((sortedPvals pvals).zip (ecdfList (sortedPvals pvals))).map (fun pe => pe.1 / pe.2)

/-- `pvals_corrected = np.minimum.accumulate(pvals_corrected_raw[::-1])[::-1]`
followed by the clamp `pvals_corrected[pvals_corrected>1] = 1`. -/
def clampedQ (pvals : List ℚ) : List ℚ :=
  ((minAccum (rawCorrected pvals).reverse).reverse).map (fun q => if 1 < q then 1 else q)

/-- `fdrcorrection(pvals, alpha)`: Benjamini-Hochberg correction, returning
`(reject_, pvals_corrected_)` scattered back to the original order. -/
def fdrcorrection (pvals : List ℚ) (alpha : ℚ) : List Bool × List ℚ :=
  (scatter false pvals.length (argsort pvals) (stepUpReject pvals alpha),
   scatter 0 pvals.length (argsort pvals) (clampedQ pvals))

/-- Masked assignment `out = _p.copy(); out[mask] = vals` where
`mask = ~np.isnan(_p)`: the `i`-th non-`NaN` position of `ps` receives the
`i`-th entry of `vals`; `NaN` positions keep their `NaN`. -/
def scatterMask : List (Option ℚ) → List ℚ → List (Option ℚ)
  | [], _ => []
  | none :: rest, vs => none :: scatterMask rest vs
  | some x :: rest, [] => some x :: scatterMask rest []
  | some _ :: rest, v :: vs => some v :: scatterMask rest vs

/-- `multiple_testing_correction(ps, alpha, method)`; returns `(q, rej)`.
`rej` is a float array in the source (`rej = _p.copy()`), so its entries are
modelled as `Option ℚ`: `NaN` where the input was `NaN`, and `1`/`0` where a
numpy boolean `True`/`False` was assigned into it. -/
def multiple_testing_correction (ps : List (Option ℚ)) (alpha : ℚ) (method : String) :
    Except String (List (Option ℚ) × List (Option ℚ)) :=
  let p := ps.filterMap id
  if method = "bonferroni" then
    Except.ok (ps.map (fun o => o.map (fun v => v * (p.length : ℚ))),
               ps.map (fun o => o.map (fun v => if v * (p.length : ℚ) < alpha then 1 else 0)))
  else if method = "benjamini-hochberg" then
    let res := fdrcorrection p alpha
    Except.ok (scatterMask ps res.2,
               scatterMask ps (res.1.map (fun b => if b then 1 else 0)))
  else Except.error method

/-- Modelled from the spec: the external `scipy.stats.hypergeom` probability
mass function (the repository imports it; it is not part of this source).
`P(X = j)` for population size `M`, `n` marked objects, `N` draws. -/
def hypergeom_pmf (M n N : ℕ) (j : ℕ) : ℚ :=
  ((n.choose j * (M - n).choose (N - j) : ℕ) : ℚ) / ((M.choose N : ℕ) : ℚ)

/-- Modelled from the spec: the cumulative distribution function
`P(X ≤ t)` of the hypergeometric distribution, as a finite sum of the pmf. -/
def hypergeom_cdf (M n N : ℕ) : ℕ → ℚ
  | 0 => hypergeom_pmf M n N 0
  | t + 1 => hypergeom_cdf M n N t + hypergeom_pmf M n N (t + 1)

/-- Modelled from the spec: `scipy.stats.hypergeom.sf(t, M, n, N)`, the
survival function `1 - cdf(t)`; an argument below the support (`t < 0`)
yields `1`, as the spec requires of `sf` at `x - 1 = -1`. -/
def hypergeom_sf (t : ℤ) (M n N : ℕ) : ℚ :=
  if t < 0 then 1 else 1 - hypergeom_cdf M n N t.toNat

/-- `gene_sets.get(s)` on the association-list model of the Python dict. -/
def dictGet (s : String) : List (String × List String) → Option (List String)
  | [] => none
  | (k, v) :: rest => if k = s then some v else dictGet s rest

/-- One tuple `(hypergeom.sf(x-1, bg_num, m, k), x, m, hits)` of the scoring
loop of `calc_pvalues`, for category name `s`. -/
def scoreOne (query : List String) (gene_sets : List (String × List String))
    (bg_num : ℕ) (s : String) : ℚ × ℕ × ℕ × List String :=
  let k := query.length
  let qset := query.dedup
  let category := (dictGet s gene_sets).getD []
  let m := category.length
  let hits := qset.filter (fun g => decide (g ∈ category))
  let x := hits.length
  (hypergeom_sf ((x : ℤ) - 1) bg_num m k, x, m, hits)

/-- `calc_pvalues(query, gene_sets, background)`.  `query` is the raw incoming
collection (the source computes `k = len(query)` before `query = set(query)`);
`gene_sets` is the dict as an association list; `background` is the optional
background size (`20000` when `None`).  Returns the list of per-category
tuples in lexicographically sorted category-name order (`subsets =
sorted(gene_sets.keys())`). -/
def calc_pvalues (query : List String) (gene_sets : List (String × List String))
    (background : Option ℕ) : List (ℚ × ℕ × ℕ × List String) :=
  let bg_num := background.getD 20000
  let subsets := (gene_sets.map Prod.fst).insertionSort (fun a b => a ≤ b)
  subsets.map (fun s => scoreOne query gene_sets bg_num s)

/-- Value-level characterization of the BH q-value assigned to an entry of
value `v`: the minimum of `1` and of `w * n / #{x ≤ w}` over all entries
`w ≥ v` of the list. -/
def bhQ (ps : List ℚ) (v : ℚ) : ℚ :=
  ((ps.filter (fun w => decide (v ≤ w))).map
    (fun w => w * (ps.length : ℚ) / ((ps.countP (fun x => decide (x ≤ w)) : ℕ) : ℚ))).foldr min 1

/-- Value-level characterization of the BH reject flag assigned to an entry of
value `v`: some entry `w ≥ v` satisfies its own test at the top of its tie
block, `w * n ≤ #{x ≤ w} * alpha`. -/
def bhRej (ps : List ℚ) (alpha v : ℚ) : Bool :=
  ps.any (fun w => decide (v ≤ w) &&
    decide (w * (ps.length : ℚ) ≤ ((ps.countP (fun x => decide (x ≤ w)) : ℕ) : ℚ) * alpha))

/-! ### Generic list lemmas -/

theorem getD_map_of_lt {α β : Type} (f : α → β) (l : List α) {i : ℕ} (h : i < l.length)
    (d : β) (d0 : α) : (l.map f).getD i d = f (l.getD i d0) := by
  rw [List.getD_eq_getElem _ _ (by simpa using h), List.getElem_map,
    List.getD_eq_getElem _ _ h]

theorem lt_length_of_getD_ne {α : Type} {l : List α} {i : ℕ} {d : α}
    (h : l.getD i d ≠ d) : i < l.length := by
  by_contra hi
  exact h (List.getD_eq_default _ _ (Nat.le_of_not_lt hi))

/-! ### Lemmas about `scatterMask` -/

theorem scatterMask_length (ps : List (Option ℚ)) (vs : List ℚ) :
    (scatterMask ps vs).length = ps.length := by
  induction ps generalizing vs with
  | nil => rfl
  | cons o rest ih =>
    cases o with
    | none => simpa [scatterMask] using ih vs
    | some x =>
      cases vs with
      | nil => simpa [scatterMask] using ih []
      | cons v vs => simpa [scatterMask] using ih vs

theorem scatterMask_none {ps : List (Option ℚ)} {vs : List ℚ} {i : ℕ}
    (h : ps.getD i (some 0) = none) : (scatterMask ps vs).getD i (some 0) = none := by
  induction ps generalizing vs i with
  | nil => simp at h
  | cons o rest ih =>
    cases o with
    | none =>
      cases i with
      | zero => simp [scatterMask]
      | succ i =>
        simp only [List.getD_cons_succ] at h
        simpa [scatterMask] using ih h
    | some x =>
      cases i with
      | zero => simp at h
      | succ i =>
        simp only [List.getD_cons_succ] at h
        cases vs with
        | nil => simpa [scatterMask] using ih h
        | cons v vs => simpa [scatterMask] using ih h

theorem map_optionMap_none {f : ℚ → ℚ} {ps : List (Option ℚ)} {i : ℕ}
    (h : ps.getD i (some 0) = none) :
    (ps.map (fun o => o.map f)).getD i (some 0) = none := by
  have hi : i < ps.length := lt_length_of_getD_ne (by rw [h]; simp)
  rw [getD_map_of_lt _ _ hi _ (some 0), h]
  rfl

/-! ### Claim C9 -/

/-- Claim C9: `multiple_testing_correction` fails exactly on an unrecognized
method string; in that case it returns `Except.error method` and nothing else
(no partial result arrays), and for the two recognized methods it always
returns a result. -/
theorem c9_method_dispatch (ps : List (Option ℚ)) (alpha : ℚ) (method : String) :
    ((∃ qr, multiple_testing_correction ps alpha method = Except.ok qr) ↔
      (method = "bonferroni" ∨ method = "benjamini-hochberg")) ∧
    (method ≠ "bonferroni" → method ≠ "benjamini-hochberg" →
      multiple_testing_correction ps alpha method = Except.error method) := by
  constructor
  · constructor
    · intro ⟨qr, hqr⟩
      by_contra hc
      push_neg at hc
      unfold multiple_testing_correction at hqr
      rw [if_neg hc.1, if_neg hc.2] at hqr
      exact Except.noConfusion hqr
    · intro hm
      unfold multiple_testing_correction
      rcases hm with h | h
      · rw [if_pos h]
        exact ⟨_, rfl⟩
      · by_cases h1 : method = "bonferroni"
        · rw [if_pos h1]; exact ⟨_, rfl⟩
        · rw [if_neg h1, if_pos h]; exact ⟨_, rfl⟩
  · intro h1 h2
    unfold multiple_testing_correction
    rw [if_neg h1, if_neg h2]

/-- Witness for C9 at concrete inputs: the unknown method `"holm"` yields
exactly `Except.error "holm"`, and `"bonferroni"` yields a result. -/
theorem c9_method_dispatch_witness :
    multiple_testing_correction [some (1/2 : ℚ)] (1/20) "holm" = Except.error "holm" ∧
    ∃ qr, multiple_testing_correction [some (1/2 : ℚ)] (1/20) "bonferroni" = Except.ok qr :=
  ⟨(c9_method_dispatch [some (1/2 : ℚ)] (1/20) "holm").2 (by decide) (by decide),
   ((c9_method_dispatch [some (1/2 : ℚ)] (1/20) "bonferroni").1).mpr (Or.inl rfl)⟩

/-! ### Claim C5 -/

/-- Claim C5: under `"bonferroni"`, at every non-`NaN` index the q-value is
exactly `p * N` with `N` the count of non-`NaN` entries, the reject entry is
the numpy boolean of `q < alpha`, and no clamping to `1` happens (the formula
is exact, so `q` may exceed `1`). -/
theorem c5_bonferroni_pointwise (ps : List (Option ℚ)) (alpha : ℚ) (i : ℕ) (v : ℚ)
    (h : ps.getD i none = some v) :
    ∃ q rej, multiple_testing_correction ps alpha "bonferroni" = Except.ok (q, rej) ∧
      q.getD i none = some (v * ((ps.filterMap id).length : ℚ)) ∧
      rej.getD i none =
        some (if v * ((ps.filterMap id).length : ℚ) < alpha then 1 else 0) := by
  have hi : i < ps.length := lt_length_of_getD_ne (by rw [h]; simp)
  refine ⟨_, _, by unfold multiple_testing_correction; rw [if_pos rfl], ?_, ?_⟩
  · rw [getD_map_of_lt _ _ hi _ none, h]; rfl
  · rw [getD_map_of_lt _ _ hi _ none, h]; rfl

/-- Witness for C5: on `[some 3/4, none, some 3/4]` the non-`NaN` count is
`2`, index `0` gets `q = 3/2 > 1` (no clamping) and is not rejected at
`alpha = 1/20`. -/
theorem c5_bonferroni_witness :
    ∃ q rej, multiple_testing_correction [some (3/4 : ℚ), none, some (3/4)] (1/20) "bonferroni"
        = Except.ok (q, rej) ∧
      q.getD 0 none = some (3/2) ∧ rej.getD 0 none = some 0 ∧ (1 : ℚ) < 3/2 := by
  obtain ⟨q, rej, h1, h2, h3⟩ :=
    c5_bonferroni_pointwise [some (3/4 : ℚ), none, some (3/4)] (1/20) 0 (3/4) rfl
  refine ⟨q, rej, h1, ?_, ?_, by norm_num⟩
  · rw [h2]; norm_num [List.filterMap_cons]
  · rw [h3]; norm_num [List.filterMap_cons]

/-! ### Claim C1 -/

/-- Claim C1, counterexample: the claim says the reject flag at a `NaN` input
index is `False`; but on input `[NaN]` under `"bonferroni"` the reject array
carries `NaN` (`none`) at index `0`, not the numpy boolean `False` (`0.0`). -/
theorem c1_nan_reject_counterexample :
    ¬ ∃ q rej, multiple_testing_correction [none] (1/20) "bonferroni" = Except.ok (q, rej) ∧
        rej.getD 0 none = some 0 := by
  rintro ⟨q, rej, h1, h2⟩
  have hval : multiple_testing_correction [none] (1/20) "bonferroni"
      = Except.ok ([none], [none]) := rfl
  rw [hval] at h1
  simp only [Except.ok.injEq, Prod.mk.injEq] at h1
  obtain ⟨-, hrej⟩ := h1
  rw [← hrej] at h2
  simp at h2

/-- Shared helper: for both methods the outputs are aligned with the input
and `NaN` inputs yield `NaN` in both output arrays. -/
theorem mtc_nan_passthrough_aux (ps : List (Option ℚ)) (alpha : ℚ) (method : String)
    (hm : method = "bonferroni" ∨ method = "benjamini-hochberg") :
    ∃ q rej, multiple_testing_correction ps alpha method = Except.ok (q, rej) ∧
      q.length = ps.length ∧ rej.length = ps.length ∧
      ∀ i, ps.getD i (some 0) = none →
        q.getD i (some 0) = none ∧ rej.getD i (some 0) = none := by
  rcases hm with h | h <;> subst h
  · refine ⟨_, _, by unfold multiple_testing_correction; rw [if_pos rfl], by simp, by simp, ?_⟩
    intro i hnan
    exact ⟨map_optionMap_none hnan, map_optionMap_none hnan⟩
  · refine ⟨_, _,
      by unfold multiple_testing_correction; rw [if_neg (by decide), if_pos rfl], ?_, ?_, ?_⟩
    · exact scatterMask_length ..
    · exact scatterMask_length ..
    · intro i hnan
      exact ⟨scatterMask_none hnan, scatterMask_none hnan⟩

/-- Claim C1, amended: for both methods the output q-values and reject arrays
are positionally aligned with the input (same length), at every `NaN` input
index the q-value is `NaN`, and the reject entry is `NaN` as well (the source
builds `rej` as a copy of the float input array, so `NaN` positions keep
`NaN`, which is not the boolean `False`). -/
theorem c1_nan_passthrough (ps : List (Option ℚ)) (alpha : ℚ) (method : String)
    (hm : method = "bonferroni" ∨ method = "benjamini-hochberg") :
    ∃ q rej, multiple_testing_correction ps alpha method = Except.ok (q, rej) ∧
      q.length = ps.length ∧ rej.length = ps.length ∧
      ∀ i, ps.getD i (some 0) = none →
        q.getD i (some 0) = none ∧ rej.getD i (some 0) = none :=
  mtc_nan_passthrough_aux ps alpha method hm

/-- Witness for C1 (amended) at a concrete input containing a `NaN`. -/
theorem c1_nan_passthrough_witness :
    ∃ q rej, multiple_testing_correction [some (1/2 : ℚ), none] (1/20) "benjamini-hochberg"
        = Except.ok (q, rej) ∧
      q.length = 2 ∧ rej.length = 2 ∧
      q.getD 1 (some 0) = none ∧ rej.getD 1 (some 0) = none := by
  obtain ⟨q, rej, h1, h2, h3, h4⟩ :=
    c1_nan_passthrough [some (1/2 : ℚ), none] (1/20) "benjamini-hochberg" (Or.inr rfl)
  obtain ⟨h5, h6⟩ := h4 1 rfl
  exact ⟨q, rej, h1, h2, h3, h5, h6⟩

/-! ### Claim C10 -/

/-- Claim C10: on an empty input array, or one whose entries are all `NaN`,
both methods return without error two arrays of the input's length, all of
whose entries are `NaN` (the dense subset handed to the correction step, and
hence to the ECDF helper, is empty). -/
theorem c10_empty_and_all_nan (ps : List (Option ℚ)) (alpha : ℚ) (method : String)
    (hps : ∀ o ∈ ps, o = none)
    (hm : method = "bonferroni" ∨ method = "benjamini-hochberg") :
    ∃ q rej, multiple_testing_correction ps alpha method = Except.ok (q, rej) ∧
      q.length = ps.length ∧ rej.length = ps.length ∧
      ∀ i, i < ps.length → q.getD i (some 0) = none ∧ rej.getD i (some 0) = none := by
  obtain ⟨q, rej, h1, h2, h3, h4⟩ := mtc_nan_passthrough_aux ps alpha method hm
  refine ⟨q, rej, h1, h2, h3, ?_⟩
  intro i hi
  refine h4 i ?_
  rw [List.getD_eq_getElem _ _ hi]
  exact hps _ (List.getElem_mem hi)

/-- Witness for C10 at the empty array and at an all-`NaN` array. -/
theorem c10_empty_and_all_nan_witness :
    (∃ q rej, multiple_testing_correction [] (1/20) "benjamini-hochberg" = Except.ok (q, rej) ∧
      q.length = 0 ∧ rej.length = 0) ∧
    (∃ q rej, multiple_testing_correction [none, none] (1/20) "benjamini-hochberg"
        = Except.ok (q, rej) ∧
      q.length = 2 ∧ rej.length = 2 ∧ q.getD 0 (some 0) = none ∧ rej.getD 0 (some 0) = none) := by
  constructor
  · obtain ⟨q, rej, h1, h2, h3, -⟩ :=
      c10_empty_and_all_nan [] (1/20) "benjamini-hochberg" (by simp) (Or.inr rfl)
    exact ⟨q, rej, h1, h2, h3⟩
  · obtain ⟨q, rej, h1, h2, h3, h4⟩ :=
      c10_empty_and_all_nan [none, none] (1/20) "benjamini-hochberg" (by simp) (Or.inr rfl)
    obtain ⟨h5, h6⟩ := h4 0 (by decide)
    exact ⟨q, rej, h1, h2, h3, h5, h6⟩

/-! ### Claim C8 -/

/-- Claim C8: whenever a category's overlap count `x` is `0` (in particular
for an empty member list, where `m = 0`), the p-value produced for it is
exactly `1`, for every query, every category mapping and every background
size: the survival function is evaluated at `x - 1 = -1`, below the support. -/
theorem c8_zero_overlap_pvalue_one (query : List String)
    (gene_sets : List (String × List String)) (background : Option ℕ) (i : ℕ)
    (hi : i < (calc_pvalues query gene_sets background).length)
    (hx : ((calc_pvalues query gene_sets background).getD i (0, 0, 0, [])).2.1 = 0) :
    ((calc_pvalues query gene_sets background).getD i (0, 0, 0, [])).1 = 1 := by
  rw [List.getD_eq_getElem _ _ hi] at hx ⊢
  simp only [calc_pvalues, List.getElem_map, scoreOne] at hx ⊢
  rw [hx]
  norm_num [hypergeom_sf]

/-- Witness for C8: the empty category `"c"` has `m = 0`, `x = 0`, and
p-value `1`. -/
theorem c8_zero_overlap_witness :
    ((calc_pvalues ["A"] [("c", [])] none).getD 0 (0, 0, 0, [])).1 = 1 :=
  c8_zero_overlap_pvalue_one ["A"] [("c", [])] none 0
    (by norm_num [calc_pvalues, List.insertionSort, List.orderedInsert])
    (by norm_num [calc_pvalues, scoreOne, dictGet, List.insertionSort, List.orderedInsert])

/-! ### Claim C6 -/

/-- Claim C6, counterexample: on the duplicate-containing query
`["A", "A"]` against category `"c" = {"A"}` with background `2`, the output
differs from the output on the deduplicated query: the source computes
`k = len(query)` before `query = set(query)`, so the draw size is `2` rather
than `1` and the p-value is `1` instead of `1/2`. -/
theorem c6_duplicate_query_counterexample :
    calc_pvalues ["A", "A"] [("c", ["A"])] (some 2) ≠
      calc_pvalues (["A", "A"].dedup) [("c", ["A"])] (some 2) := by
  have h1 : calc_pvalues ["A", "A"] [("c", ["A"])] (some 2) = [(1, 1, 1, ["A"])] := by
    norm_num [calc_pvalues, scoreOne, dictGet, List.insertionSort, List.orderedInsert,
      List.dedup_cons_of_mem, List.dedup_cons_of_not_mem, hypergeom_sf, hypergeom_cdf,
      hypergeom_pmf, Nat.choose]
  have h2 : calc_pvalues (["A", "A"].dedup) [("c", ["A"])] (some 2) = [(1/2, 1, 1, ["A"])] := by
    norm_num [calc_pvalues, scoreOne, dictGet, List.insertionSort, List.orderedInsert,
      List.dedup_cons_of_mem, List.dedup_cons_of_not_mem, hypergeom_sf, hypergeom_cdf,
      hypergeom_pmf, Nat.choose]
  rw [h1, h2]
  intro h
  have := List.cons.injEq .. ▸ h
  norm_num at h

/-- Claim C6, amended: the query is deduplicated only for the overlap
computation — the overlap count, category size and hit set columns coincide
with those of the deduplicated query — while the hypergeometric draw size `k`
is the length of the raw query including duplicates, so the p-value column
may differ from the one obtained on the deduplicated query. -/
theorem c6_dedup_overlap_only (query : List String)
    (gene_sets : List (String × List String)) (background : Option ℕ) :
    (calc_pvalues query gene_sets background).map (fun t => t.2) =
      (calc_pvalues query.dedup gene_sets background).map (fun t => t.2) := by
  simp only [calc_pvalues, List.map_map]
  congr 1
  funext s
  simp only [Function.comp_apply, scoreOne, List.dedup_idem]

/-! ### Claim C7 -/

/-- `dict.get` is insensitive to the order of an association list with
unique keys. -/
theorem dictGet_perm {l₁ l₂ : List (String × List String)} (h : l₁.Perm l₂)
    (hnd : (l₁.map Prod.fst).Nodup) (s : String) :
    dictGet s l₁ = dictGet s l₂ := by
  induction h with
  | nil => rfl
  | cons a h ih =>
    obtain ⟨k, v⟩ := a
    simp only [List.map_cons, List.nodup_cons] at hnd
    simp only [dictGet]
    rw [ih hnd.2]
  | swap a b l =>
    obtain ⟨ka, va⟩ := a
    obtain ⟨kb, vb⟩ := b
    simp only [List.map_cons, List.nodup_cons, List.mem_cons, not_or] at hnd
    simp only [dictGet]
    by_cases h1 : kb = s <;> by_cases h2 : ka = s
    · exact absurd (h1.trans h2.symm) hnd.1.1
    · simp [h1, h2]
    · simp [h1, h2]
    · simp [h1, h2]
  | trans h1 h2 ih1 ih2 =>
    have hnd2 := ((h1.map Prod.fst).nodup_iff).mp hnd
    exact (ih1 hnd).trans (ih2 hnd2)

/-- Claim C7: `calc_pvalues` emits exactly one tuple per category, in
lexicographically sorted category-name order, so its output is unchanged when
the (unique-keyed) category mapping is supplied in any other order. -/
theorem c7_sorted_category_order (query : List String)
    (gs1 gs2 : List (String × List String)) (background : Option ℕ)
    (hperm : gs1.Perm gs2) (hnd : (gs1.map Prod.fst).Nodup) :
    calc_pvalues query gs1 background = calc_pvalues query gs2 background ∧
    (calc_pvalues query gs1 background).length = gs1.length := by
  have hkeys : (gs1.map Prod.fst).Perm (gs2.map Prod.fst) := hperm.map _
  have hsort : (gs1.map Prod.fst).insertionSort (fun a b => a ≤ b) =
      (gs2.map Prod.fst).insertionSort (fun a b => a ≤ b) := by
    refine @List.eq_of_perm_of_sorted String (fun a b => a ≤ b) inferInstance _ _ ?_ ?_ ?_
    · exact ((List.perm_insertionSort _ _).trans hkeys).trans
        (List.perm_insertionSort _ _).symm
    · exact List.sorted_insertionSort _ _
    · exact List.sorted_insertionSort _ _
  constructor
  · simp only [calc_pvalues]
    rw [hsort]
    refine List.map_congr_left (fun s _ => ?_)
    simp only [scoreOne]
    rw [dictGet_perm hperm hnd s]
  · simp [calc_pvalues]

/-- Witness for C7: two orderings of the mapping `{"a" ↦ ∅, "b" ↦ ∅}` give
the same output, of one tuple per category. -/
theorem c7_sorted_category_order_witness :
    calc_pvalues [] [("b", []), ("a", [])] none = calc_pvalues [] [("a", []), ("b", [])] none ∧
    (calc_pvalues [] [("b", []), ("a", [])] none).length = 2 :=
  c7_sorted_category_order [] [("b", []), ("a", [])] [("a", []), ("b", [])] none
    (List.Perm.swap _ _ _) (by simp)

/-! ### Running-minimum lemmas -/

theorem minAccum_length (l : List ℚ) : (minAccum l).length = l.length := by
  induction l with
  | nil => rfl
  | cons x xs ih => simp [minAccum, ih]

theorem minAccum_le (l : List ℚ) (i j : ℕ) (hj : j ≤ i) (hi : i < l.length) :
    (minAccum l).getD i 0 ≤ l.getD j 0 := by
  induction l generalizing i j with
  | nil => simp at hi
  | cons x xs ih =>
    cases i with
    | zero =>
      obtain rfl : j = 0 := Nat.le_zero.mp hj
      simp [minAccum]
    | succ i =>
      have hi' : i < xs.length := by simpa using hi
      cases j with
      | zero =>
        simp only [minAccum, List.getD_cons_succ, List.getD_cons_zero]
        rw [getD_map_of_lt _ _ (by rw [minAccum_length]; exact hi') _ 0]
        exact min_le_left _ _
      | succ j =>
        simp only [minAccum, List.getD_cons_succ]
        rw [getD_map_of_lt _ _ (by rw [minAccum_length]; exact hi') _ 0]
        exact le_trans (min_le_right _ _) (ih i j (by omega) hi')

theorem minAccum_attained (l : List ℚ) (i : ℕ) (hi : i < l.length) :
    ∃ j, j ≤ i ∧ j < l.length ∧ (minAccum l).getD i 0 = l.getD j 0 := by
  induction l generalizing i with
  | nil => simp at hi
  | cons x xs ih =>
    cases i with
    | zero => exact ⟨0, Nat.le_refl 0, by simp, by simp [minAccum]⟩
    | succ i =>
      have hi' : i < xs.length := by simpa using hi
      obtain ⟨j, hj1, hj2, hj3⟩ := ih i hi'
      simp only [minAccum, List.getD_cons_succ]
      rw [getD_map_of_lt _ _ (by rw [minAccum_length]; exact hi') _ 0]
      rcases le_total x ((minAccum xs).getD i 0) with hc | hc
      · exact ⟨0, by omega, by simp, by rw [List.getD_cons_zero, min_eq_left hc]⟩
      · exact ⟨j + 1, by omega, by simpa using hj2,
          by simp only [List.getD_cons_succ]; rw [min_eq_right hc]; exact hj3⟩

theorem getD_reverse (l : List ℚ) (i : ℕ) (hi : i < l.length) :
    l.reverse.getD i 0 = l.getD (l.length - 1 - i) 0 := by
  rw [List.getD_eq_getElem _ _ (by simpa using hi), List.getElem_reverse,
    List.getD_eq_getElem _ _ (by omega)]

theorem revMinAccum_getD (l : List ℚ) (i : ℕ) (hi : i < l.length) :
    ((minAccum l.reverse).reverse).getD i 0 =
      (minAccum l.reverse).getD (l.length - 1 - i) 0 := by
  have h1 : (minAccum l.reverse).length = l.length := by simp [minAccum_length]
  rw [getD_reverse (minAccum l.reverse) i (by rw [h1]; exact hi), h1]

theorem revMinAccum_le (l : List ℚ) (i j : ℕ) (hij : i ≤ j) (hj : j < l.length) :
    ((minAccum l.reverse).reverse).getD i 0 ≤ l.getD j 0 := by
  have hi : i < l.length := Nat.lt_of_le_of_lt hij hj
  rw [revMinAccum_getD l i hi]
  have h2 := minAccum_le l.reverse (l.length - 1 - i) (l.length - 1 - j)
    (by omega) (by simp only [List.length_reverse]; omega)
  rw [getD_reverse l (l.length - 1 - j) (by omega)] at h2
  have h3 : l.length - 1 - (l.length - 1 - j) = j := by omega
  rwa [h3] at h2

theorem revMinAccum_attained (l : List ℚ) (i : ℕ) (hi : i < l.length) :
    ∃ j, i ≤ j ∧ j < l.length ∧ ((minAccum l.reverse).reverse).getD i 0 = l.getD j 0 := by
  rw [revMinAccum_getD l i hi]
  obtain ⟨j', hj1, hj2, hj3⟩ := minAccum_attained l.reverse (l.length - 1 - i)
    (by simp only [List.length_reverse]; omega)
  rw [List.length_reverse] at hj2
  rw [getD_reverse l j' hj2] at hj3
  exact ⟨l.length - 1 - j', by omega, by omega, hj3⟩

/-! ### Fold lemmas for max and min -/

theorem foldr_max_le_mem (l : List ℕ) (x : ℕ) (hx : x ∈ l) : x ≤ l.foldr max 0 := by
  induction l with
  | nil => simp at hx
  | cons a t ih =>
    rcases List.mem_cons.mp hx with rfl | hx
    · exact le_max_left _ _
    · exact le_trans (ih hx) (le_max_right _ _)

theorem foldr_max_mem (l : List ℕ) (hl : l ≠ []) : l.foldr max 0 ∈ l := by
  induction l with
  | nil => simp at hl
  | cons a t ih =>
    cases t with
    | nil =>
      rw [show ([a] : List ℕ).foldr max 0 = max a 0 from rfl, Nat.max_zero]
      exact List.mem_singleton_self a
    | cons b t' =>
      rcases le_total a ((b :: t').foldr max 0) with hc | hc
      · rw [show (a :: b :: t').foldr max 0 = max a ((b :: t').foldr max 0) from rfl,
          max_eq_right hc]
        exact List.mem_cons_of_mem _ (ih (by simp))
      · rw [show (a :: b :: t').foldr max 0 = max a ((b :: t').foldr max 0) from rfl,
          max_eq_left hc]
        exact List.mem_cons_self _ _

theorem foldr_min_le_mem (l : List ℚ) (b x : ℚ) (hx : x ∈ l) : l.foldr min b ≤ x := by
  induction l with
  | nil => simp at hx
  | cons a t ih =>
    rcases List.mem_cons.mp hx with rfl | hx
    · exact min_le_left _ _
    · exact le_trans (min_le_right _ _) (ih hx)

theorem foldr_min_le_base (l : List ℚ) (b : ℚ) : l.foldr min b ≤ b := by
  induction l with
  | nil => simp
  | cons a t ih => exact le_trans (min_le_right _ _) ih

theorem le_foldr_min (l : List ℚ) (b c : ℚ) (hb : c ≤ b) (h : ∀ x ∈ l, c ≤ x) :
    c ≤ l.foldr min b := by
  induction l with
  | nil => simpa
  | cons a t ih =>
    exact le_min (h a (List.mem_cons_self _ _)) (ih (fun x hx => h x (List.mem_cons_of_mem _ hx)))

theorem foldr_min_perm {l₁ l₂ : List ℚ} (h : l₁.Perm l₂) (b : ℚ) :
    l₁.foldr min b = l₂.foldr min b := by
  induction h with
  | nil => rfl
  | cons a h ih => simp only [List.foldr_cons]; rw [ih]
  | swap x y l => exact min_left_comm _ _ _
  | trans h1 h2 ih1 ih2 => rw [ih1, ih2]

/-! ### `maxTrueIdx` -/

theorem maxTrueIdx_spec (bs : List Bool)
    (h : ∃ i, i < bs.length ∧ bs.getD i false = true) :
    bs.getD (maxTrueIdx bs) false = true ∧
      ∀ i, bs.getD i false = true → i ≤ maxTrueIdx bs := by
  obtain ⟨i0, hi0, hb0⟩ := h
  have hmem : i0 ∈ (List.range bs.length).filter (fun i => bs.getD i false) := by
    simp only [List.mem_filter, List.mem_range]
    exact ⟨hi0, hb0⟩
  have hne : (List.range bs.length).filter (fun i => bs.getD i false) ≠ [] :=
    fun hnil => by rw [hnil] at hmem; simp at hmem
  constructor
  · have hm := foldr_max_mem _ hne
    exact (List.mem_filter.mp hm).2
  · intro i hbi
    have hi : i < bs.length := by
      by_contra hc
      rw [List.getD_eq_default _ _ (Nat.le_of_not_lt hc)] at hbi
      simp at hbi
    refine foldr_max_le_mem _ _ ?_
    simp only [List.mem_filter, List.mem_range]
    exact ⟨hi, hbi⟩

/-! ### `scatter` inversion -/

theorem scatter_length {α : Type} (d : α) (n : ℕ) (ind : List ℕ) (vals : List α) :
    (scatter d n ind vals).length = n := by
  simp [scatter]

theorem scatter_getD_at {α : Type} (d : α) (n : ℕ) (ind : List ℕ) (vals : List α) (i : ℕ)
    (hnd : ind.Nodup) (hi : i < ind.length) (hbound : ind.getD i 0 < n) :
    (scatter d n ind vals).getD (ind.getD i 0) d = vals.getD i d := by
  rw [scatter, getD_map_of_lt _ _ (by simpa using hbound) _ 0,
    List.getD_eq_getElem (List.range n) _ (by simpa using hbound), List.getElem_range]
  congr 1
  rw [List.getD_eq_getElem _ _ hi]
  simpa using List.get_indexOf hnd ⟨i, hi⟩

/-! ### `argsort` and `sortedPvals` facts -/

theorem argsort_perm_range (pvals : List ℚ) :
    (argsort pvals).Perm (List.range pvals.length) :=
  List.perm_insertionSort _ _

theorem argsort_length (pvals : List ℚ) : (argsort pvals).length = pvals.length := by
  simpa using (argsort_perm_range pvals).length_eq

theorem argsort_nodup (pvals : List ℚ) : (argsort pvals).Nodup :=
  ((argsort_perm_range pvals).nodup_iff).mpr (List.nodup_range _)

theorem argsort_getD_lt (pvals : List ℚ) (j : ℕ) (hj : j < pvals.length) :
    (argsort pvals).getD j 0 < pvals.length := by
  have hj' : j < (argsort pvals).length := by rw [argsort_length]; exact hj
  have hmem : (argsort pvals).getD j 0 ∈ argsort pvals := by
    rw [List.getD_eq_getElem _ _ hj']
    exact List.getElem_mem _
  simpa using (argsort_perm_range pvals).mem_iff.mp hmem

theorem range_map_getD (l : List ℚ) :
    (List.range l.length).map (fun i => l.getD i 0) = l := by
  refine List.ext_getElem (by simp) ?_
  intro i h1 h2
  simp only [List.getElem_map, List.getElem_range]
  rw [List.getD_eq_getElem _ _ h2]

theorem sortedPvals_length (pvals : List ℚ) :
    (sortedPvals pvals).length = pvals.length := by
  simp [sortedPvals, argsort_length]

theorem sortedPvals_perm (pvals : List ℚ) : (sortedPvals pvals).Perm pvals := by
  have h := (argsort_perm_range pvals).map (fun i => pvals.getD i 0)
  rw [range_map_getD] at h
  exact h

theorem sortedPvals_sorted (pvals : List ℚ) :
    (sortedPvals pvals).Pairwise (fun a b => a ≤ b) := by
  haveI : IsTotal ℕ (fun i j => pvals.getD i 0 ≤ pvals.getD j 0) :=
    ⟨fun a b => le_total _ _⟩
  haveI : IsTrans ℕ (fun i j => pvals.getD i 0 ≤ pvals.getD j 0) :=
    ⟨fun a b c hab hbc => le_trans hab hbc⟩
  have hs := List.sorted_insertionSort (fun i j => pvals.getD i 0 ≤ pvals.getD j 0)
    (List.range pvals.length)
  exact List.Pairwise.map _ (fun a b hab => hab) hs

theorem sortedPvals_getD (pvals : List ℚ) (i : ℕ) (hi : i < pvals.length) :
    (sortedPvals pvals).getD i 0 = pvals.getD ((argsort pvals).getD i 0) 0 := by
  rw [sortedPvals, getD_map_of_lt _ _ (by rw [argsort_length]; exact hi) _ 0]

theorem sortedPvals_mono (pvals : List ℚ) (i j : ℕ) (hij : i ≤ j) (hj : j < pvals.length) :
    (sortedPvals pvals).getD i 0 ≤ (sortedPvals pvals).getD j 0 := by
  rcases Nat.eq_or_lt_of_le hij with rfl | hlt
  · exact le_refl _
  · have hi : i < pvals.length := Nat.lt_trans hlt hj
    have := (List.pairwise_iff_getElem.mp (sortedPvals_sorted pvals)) i j
      (by rw [sortedPvals_length]; exact hi) (by rw [sortedPvals_length]; exact hj) hlt
    rwa [List.getD_eq_getElem _ _ (by rw [sortedPvals_length]; exact hi),
      List.getD_eq_getElem _ _ (by rw [sortedPvals_length]; exact hj)]

/-! ### Elementwise formulas for the pipeline stages -/

theorem zip_map_getD {β : Type} (f : ℚ × ℚ → β) (l1 l2 : List ℚ) (i : ℕ) (d : β)
    (h1 : i < l1.length) (h2 : i < l2.length) :
    ((l1.zip l2).map f).getD i d = f (l1.getD i 0, l2.getD i 0) := by
  have hz : i < (l1.zip l2).length := by rw [List.length_zip]; omega
  rw [getD_map_of_lt _ _ hz _ (0, 0), List.getD_eq_getElem _ _ hz, List.getElem_zip,
    List.getD_eq_getElem _ _ h1, List.getD_eq_getElem _ _ h2]

theorem ecdfList_length (x : List ℚ) : (ecdfList x).length = x.length := by
  simp [ecdfList]

theorem ecdfList_getD (x : List ℚ) (i : ℕ) (hi : i < x.length) :
    (ecdfList x).getD i 0 = ((i : ℚ) + 1) / (x.length : ℚ) := by
  rw [ecdfList, getD_map_of_lt _ _ (by simpa using hi) _ 0,
    List.getD_eq_getElem _ _ (by simpa using hi), List.getElem_range]

theorem provisionalReject_length (pvals : List ℚ) (alpha : ℚ) :
    (provisionalReject pvals alpha).length = pvals.length := by
  simp [provisionalReject, List.length_zip, sortedPvals_length, ecdfList_length]

theorem provisionalReject_getD (pvals : List ℚ) (alpha : ℚ) (i : ℕ) (hi : i < pvals.length) :
    (provisionalReject pvals alpha).getD i false =
      decide ((sortedPvals pvals).getD i 0 ≤ (((i : ℚ) + 1) / (pvals.length : ℚ)) * alpha) := by
  rw [provisionalReject, zip_map_getD _ _ _ _ _ (by rw [sortedPvals_length]; exact hi)
    (by rw [ecdfList_length, sortedPvals_length]; exact hi)]
  rw [ecdfList_getD _ _ (by rw [sortedPvals_length]; exact hi), sortedPvals_length]

theorem rawCorrected_length (pvals : List ℚ) :
    (rawCorrected pvals).length = pvals.length := by
  simp [rawCorrected, List.length_zip, sortedPvals_length, ecdfList_length]

theorem rawCorrected_getD (pvals : List ℚ) (i : ℕ) (hi : i < pvals.length) :
    (rawCorrected pvals).getD i 0 =
      (sortedPvals pvals).getD i 0 / (((i : ℚ) + 1) / (pvals.length : ℚ)) := by
  rw [rawCorrected, zip_map_getD _ _ _ _ _ (by rw [sortedPvals_length]; exact hi)
    (by rw [ecdfList_length, sortedPvals_length]; exact hi)]
  rw [ecdfList_getD _ _ (by rw [sortedPvals_length]; exact hi), sortedPvals_length]

theorem stepUpReject_length (pvals : List ℚ) (alpha : ℚ) :
    (stepUpReject pvals alpha).length = pvals.length := by
  rw [stepUpReject]
  by_cases hany : (provisionalReject pvals alpha).any (fun b => b)
  · rw [if_pos hany]
    simp [provisionalReject_length]
  · rw [if_neg hany]
    exact provisionalReject_length pvals alpha

theorem clampedQ_length (pvals : List ℚ) : (clampedQ pvals).length = pvals.length := by
  simp [clampedQ, minAccum_length, rawCorrected_length]

theorem clampedQ_getD (pvals : List ℚ) (i : ℕ) (hi : i < pvals.length) :
    (clampedQ pvals).getD i 0 =
      if 1 < ((minAccum (rawCorrected pvals).reverse).reverse).getD i 0 then 1
      else ((minAccum (rawCorrected pvals).reverse).reverse).getD i 0 := by
  rw [clampedQ, getD_map_of_lt _ _
    (by simp only [List.length_reverse, minAccum_length, rawCorrected_length]; exact hi) _ 0]

/-! ### The step-up fix characterized -/

theorem stepUpReject_iff (pvals : List ℚ) (alpha : ℚ) (i : ℕ) (hi : i < pvals.length) :
    (stepUpReject pvals alpha).getD i false = true ↔
      ∃ j, i ≤ j ∧ j < pvals.length ∧
        (provisionalReject pvals alpha).getD j false = true := by
  rw [stepUpReject]
  by_cases hany : (provisionalReject pvals alpha).any (fun b => b)
  · rw [if_pos hany]
    have hex : ∃ k, k < (provisionalReject pvals alpha).length ∧
        (provisionalReject pvals alpha).getD k false = true := by
      obtain ⟨x, hx, hxx⟩ := List.any_eq_true.mp hany
      obtain ⟨k, hk, hkx⟩ := List.getElem_of_mem hx
      refine ⟨k, hk, ?_⟩
      rw [List.getD_eq_getElem _ _ hk, hkx]
      exact hxx
    have spec := maxTrueIdx_spec _ hex
    have hMn : maxTrueIdx (provisionalReject pvals alpha) < pvals.length := by
      have := lt_length_of_getD_ne (l := provisionalReject pvals alpha)
        (i := maxTrueIdx (provisionalReject pvals alpha)) (d := false) (by rw [spec.1]; simp)
      rwa [provisionalReject_length] at this
    rw [getD_map_of_lt _ _ (by simp only [List.length_range, provisionalReject_length]; exact hi) _ 0,
      List.getD_eq_getElem (List.range _) _
        (by simp only [List.length_range, provisionalReject_length]; exact hi),
      List.getElem_range]
    constructor
    · intro hL
      by_cases hiM : i < maxTrueIdx (provisionalReject pvals alpha)
      · exact ⟨maxTrueIdx (provisionalReject pvals alpha), Nat.le_of_lt hiM, hMn, spec.1⟩
      · rw [if_neg hiM] at hL
        exact ⟨i, Nat.le_refl i, hi, hL⟩
    · rintro ⟨j, hij, hjn, hj⟩
      have hjM : j ≤ maxTrueIdx (provisionalReject pvals alpha) := spec.2 j hj
      by_cases hiM : i < maxTrueIdx (provisionalReject pvals alpha)
      · rw [if_pos hiM]
      · rw [if_neg hiM]
        have hij' : i = j := by omega
        rw [hij']
        exact hj
  · rw [if_neg hany]
    have hall : ∀ b ∈ provisionalReject pvals alpha, b = false := by
      intro b hb
      by_contra hc
      exact hany (List.any_eq_true.mpr ⟨b, hb, by revert hc; cases b <;> simp⟩)
    have hfalse : ∀ j, j < pvals.length →
        (provisionalReject pvals alpha).getD j false = false := by
      intro j hj
      have hj' : j < (provisionalReject pvals alpha).length := by
        rw [provisionalReject_length]; exact hj
      rw [List.getD_eq_getElem _ _ hj']
      exact hall _ (List.getElem_mem _)
    constructor
    · intro hL
      rw [hfalse i hi] at hL
      exact absurd hL (by simp)
    · rintro ⟨j, hij, hjn, hj⟩
      rw [hfalse j hjn] at hj
      exact absurd hj (by simp)

/-! ### Output projections of `fdrcorrection` -/

theorem fdr_q_at_sorted (pvals : List ℚ) (alpha : ℚ) (j : ℕ) (hj : j < pvals.length) :
    (fdrcorrection pvals alpha).2.getD ((argsort pvals).getD j 0) 0 =
      (clampedQ pvals).getD j 0 :=
  scatter_getD_at 0 pvals.length (argsort pvals) (clampedQ pvals) j (argsort_nodup _)
    (by rw [argsort_length]; exact hj) (argsort_getD_lt _ _ hj)

theorem fdr_rej_at_sorted (pvals : List ℚ) (alpha : ℚ) (j : ℕ) (hj : j < pvals.length) :
    (fdrcorrection pvals alpha).1.getD ((argsort pvals).getD j 0) false =
      (stepUpReject pvals alpha).getD j false :=
  scatter_getD_at false pvals.length (argsort pvals) (stepUpReject pvals alpha) j
    (argsort_nodup _) (by rw [argsort_length]; exact hj) (argsort_getD_lt _ _ hj)

/-! ### Claim C2 -/

/-- Claim C2: under Benjamini-Hochberg, the q-values read along the
ascending-p sorted order (through `argsort`) are non-decreasing, and for a
valid p-value array (non-negative entries) every output q-value lies in
`[0, 1]`: the reverse running minimum enforces monotonicity and the final
clamp caps values exceeding `1` at exactly `1`. -/
theorem c2_bh_q_monotone_bounded (pvals : List ℚ) (alpha : ℚ)
    (hnn : ∀ v ∈ pvals, 0 ≤ v) :
    (∀ i j, i ≤ j → j < pvals.length →
      (fdrcorrection pvals alpha).2.getD ((argsort pvals).getD i 0) 0 ≤
        (fdrcorrection pvals alpha).2.getD ((argsort pvals).getD j 0) 0) ∧
    (∀ idx, idx < pvals.length →
      0 ≤ (fdrcorrection pvals alpha).2.getD idx 0 ∧
        (fdrcorrection pvals alpha).2.getD idx 0 ≤ 1) := by
  have hlenraw : (rawCorrected pvals).length = pvals.length := rawCorrected_length pvals
  constructor
  · intro i j hij hj
    have hi : i < pvals.length := Nat.lt_of_le_of_lt hij hj
    rw [fdr_q_at_sorted _ _ i hi, fdr_q_at_sorted _ _ j hj, clampedQ_getD _ _ hi,
      clampedQ_getD _ _ hj]
    have hmono : ((minAccum (rawCorrected pvals).reverse).reverse).getD i 0 ≤
        ((minAccum (rawCorrected pvals).reverse).reverse).getD j 0 := by
      obtain ⟨k, hk1, hk2, hk3⟩ := revMinAccum_attained (rawCorrected pvals) j
        (by rw [hlenraw]; exact hj)
      rw [hk3]
      exact revMinAccum_le (rawCorrected pvals) i k (le_trans hij hk1) hk2
    split_ifs with h1 h2 <;> linarith
  · intro idx hidx
    have hmem : idx ∈ argsort pvals :=
      (argsort_perm_range pvals).mem_iff.mpr (List.mem_range.mpr hidx)
    obtain ⟨i, hi, hidx_eq⟩ := List.getElem_of_mem hmem
    rw [argsort_length] at hi
    have hgetD : (argsort pvals).getD i 0 = idx := by
      rw [List.getD_eq_getElem _ _ (by rw [argsort_length]; exact hi)]
      exact hidx_eq
    rw [← hgetD, fdr_q_at_sorted _ _ i hi, clampedQ_getD _ _ hi]
    obtain ⟨k, hk1, hk2, hk3⟩ := revMinAccum_attained (rawCorrected pvals) i
      (by rw [hlenraw]; exact hi)
    have hk2' : k < pvals.length := by rw [hlenraw] at hk2; exact hk2
    have hSnn : 0 ≤ (sortedPvals pvals).getD k 0 := by
      have hmem2 : (sortedPvals pvals).getD k 0 ∈ sortedPvals pvals := by
        rw [List.getD_eq_getElem _ _ (by rw [sortedPvals_length]; exact hk2')]
        exact List.getElem_mem _
      exact hnn _ ((sortedPvals_perm pvals).mem_iff.mp hmem2)
    have hnpos : (0 : ℚ) < (pvals.length : ℚ) := by
      exact_mod_cast Nat.pos_of_ne_zero (by omega)
    have hecdf_pos : (0 : ℚ) < ((k : ℚ) + 1) / (pvals.length : ℚ) := by
      apply div_pos _ hnpos
      positivity
    have hge0 : 0 ≤ ((minAccum (rawCorrected pvals).reverse).reverse).getD i 0 := by
      rw [hk3, rawCorrected_getD _ _ hk2']
      exact div_nonneg hSnn (le_of_lt hecdf_pos)
    constructor
    · split_ifs with h1
      · norm_num
      · exact hge0
    · split_ifs with h1
      · exact le_refl 1
      · exact le_of_not_lt h1

/-- Witness for C2 at `pvals = [1/1000, 2/10, 3/100, 4/100]`, `alpha = 1/20`. -/
theorem c2_bh_q_monotone_bounded_witness :
    0 ≤ (fdrcorrection [1/1000, 2/10, 3/100, 4/100] (1/20)).2.getD 0 0 ∧
      (fdrcorrection [1/1000, 2/10, 3/100, 4/100] (1/20)).2.getD 0 0 ≤ 1 :=
  (c2_bh_q_monotone_bounded [1/1000, 2/10, 3/100, 4/100] (1/20)
    (by intro v hv
        simp only [List.mem_cons, List.not_mem_nil, or_false] at hv
        rcases hv with rfl | rfl | rfl | rfl <;> norm_num)).2 0 (by norm_num)

/-! ### Claim C3 -/

/-- Claim C3: under Benjamini-Hochberg, if some sorted position `i` passes
its provisional test `p_sorted[i] ≤ ((i+1)/n) * alpha`, then a sorted
position is rejected exactly when it lies at or before the last passing
position (`maxTrueIdx` of the provisional flags) — in particular every
earlier position is rejected even if its own test failed and no later
position is rejected; and if no position passes, nothing is rejected. -/
theorem c3_bh_reject_front_segment (pvals : List ℚ) (alpha : ℚ) :
    ((∃ i, i < pvals.length ∧
        (sortedPvals pvals).getD i 0 ≤ (((i : ℚ) + 1) / (pvals.length : ℚ)) * alpha) →
      ∀ j, j < pvals.length →
        ((fdrcorrection pvals alpha).1.getD ((argsort pvals).getD j 0) false = true ↔
          j ≤ maxTrueIdx (provisionalReject pvals alpha))) ∧
    ((¬ ∃ i, i < pvals.length ∧
        (sortedPvals pvals).getD i 0 ≤ (((i : ℚ) + 1) / (pvals.length : ℚ)) * alpha) →
      ∀ j, j < pvals.length →
        (fdrcorrection pvals alpha).1.getD ((argsort pvals).getD j 0) false = false) := by
  have hiff : ∀ i, i < pvals.length →
      ((provisionalReject pvals alpha).getD i false = true ↔
        (sortedPvals pvals).getD i 0 ≤ (((i : ℚ) + 1) / (pvals.length : ℚ)) * alpha) := by
    intro i hi
    rw [provisionalReject_getD _ _ _ hi]
    exact decide_eq_true_iff
  constructor
  · rintro ⟨i0, hi0, hp0⟩ j hj
    rw [fdr_rej_at_sorted _ _ j hj, stepUpReject_iff _ _ _ hj]
    have hexx : ∃ k, k < (provisionalReject pvals alpha).length ∧
        (provisionalReject pvals alpha).getD k false = true :=
      ⟨i0, by rw [provisionalReject_length]; exact hi0, (hiff i0 hi0).mpr hp0⟩
    have spec := maxTrueIdx_spec _ hexx
    constructor
    · rintro ⟨k, hjk, hkn, hk⟩
      exact le_trans hjk (spec.2 k hk)
    · intro hjM
      have hMn : maxTrueIdx (provisionalReject pvals alpha) < pvals.length := by
        have h2 := lt_length_of_getD_ne (l := provisionalReject pvals alpha)
          (i := maxTrueIdx (provisionalReject pvals alpha)) (d := false)
          (by rw [spec.1]; simp)
        rwa [provisionalReject_length] at h2
      exact ⟨maxTrueIdx (provisionalReject pvals alpha), hjM, hMn, spec.1⟩
  · intro hno j hj
    rw [fdr_rej_at_sorted _ _ j hj]
    by_contra hc
    have htrue : (stepUpReject pvals alpha).getD j false = true := by
      revert hc
      cases (stepUpReject pvals alpha).getD j false <;> simp
    obtain ⟨k, hjk, hkn, hk⟩ := (stepUpReject_iff _ _ _ hj).mp htrue
    exact hno ⟨k, hkn, (hiff k hkn).mp hk⟩

/-- Witness for C3: at `[1/1000, 2/10, 3/100, 4/100]`, `alpha = 1/20`, the
smallest p-value passes its provisional test and its position is rejected;
at `[9/10]` no position passes and nothing is rejected. -/
theorem c3_bh_reject_front_segment_witness :
    (fdrcorrection [1/1000, 2/10, 3/100, 4/100] (1/20)).1.getD
        ((argsort [1/1000, 2/10, 3/100, 4/100]).getD 0 0) false = true ∧
    (fdrcorrection [9/10] (1/20)).1.getD ((argsort [9/10]).getD 0 0) false = false := by
  constructor
  · refine ((c3_bh_reject_front_segment [1/1000, 2/10, 3/100, 4/100] (1/20)).1
      ⟨0, by norm_num, ?_⟩ 0 (by norm_num)).mpr (Nat.zero_le _)
    norm_num [sortedPvals, argsort, List.insertionSort, List.orderedInsert,
      List.getD_cons_zero]
  · refine (c3_bh_reject_front_segment [9/10] (1/20)).2 ?_ 0 (by norm_num)
    rintro ⟨i, hi, hp⟩
    obtain rfl : i = 0 := Nat.lt_one_iff.mp (by simpa using hi)
    norm_num [sortedPvals, argsort, List.insertionSort, List.orderedInsert,
      List.getD_cons_zero] at hp

/-! ### Counting positions in a sorted list -/

theorem sorted_getD_le_iff (L : List ℚ) (hL : L.Pairwise (fun a b => a ≤ b)) (v : ℚ) :
    ∀ j, j < L.length →
      (L.getD j 0 ≤ v ↔ j < L.countP (fun x => decide (x ≤ v))) := by
  induction L with
  | nil => intro j hj; simp at hj
  | cons x xs ih =>
    rw [List.pairwise_cons] at hL
    obtain ⟨hx, hxs⟩ := hL
    intro j hj
    rw [List.countP_cons]
    cases j with
    | zero =>
      rw [List.getD_cons_zero]
      constructor
      · intro hxv
        rw [if_pos (decide_eq_true hxv)]
        omega
      · intro hcount
        by_contra hxv
        rw [if_neg (by rw [decide_eq_false hxv]; simp)] at hcount
        have hpos : 0 < xs.countP (fun x => decide (x ≤ v)) := by omega
        obtain ⟨y, hy, hyv⟩ := List.countP_pos_iff.mp hpos
        exact hxv (le_trans (hx y hy) (of_decide_eq_true hyv))
    | succ j =>
      have hj' : j < xs.length := by simpa using hj
      rw [List.getD_cons_succ]
      rcases le_or_lt x v with hxv | hvx
      · rw [if_pos (decide_eq_true hxv), ih hxs j hj']
        omega
      · have hxj : x ≤ xs.getD j 0 := by
          refine hx _ ?_
          rw [List.getD_eq_getElem _ _ hj']
          exact List.getElem_mem _
        rw [if_neg (by rw [decide_eq_false (not_le.mpr hvx)]; simp)]
        have hcount0 : xs.countP (fun x => decide (x ≤ v)) = 0 := by
          by_contra hc
          obtain ⟨y, hy, hyv⟩ := List.countP_pos_iff.mp (Nat.pos_of_ne_zero hc)
          have h1 := hx y hy
          have h2 := of_decide_eq_true hyv
          linarith
        constructor
        · intro h
          exfalso
          have := le_trans hxj h
          linarith
        · intro h
          rw [hcount0] at h
          omega

theorem sorted_block_end (ps : List ℚ) (w : ℚ) (hw : w ∈ ps) :
    0 < ps.countP (fun x => decide (x ≤ w)) ∧
    ps.countP (fun x => decide (x ≤ w)) ≤ ps.length ∧
    (sortedPvals ps).getD (ps.countP (fun x => decide (x ≤ w)) - 1) 0 = w := by
  have hcntS : (sortedPvals ps).countP (fun x => decide (x ≤ w)) =
      ps.countP (fun x => decide (x ≤ w)) := (sortedPvals_perm ps).countP_eq _
  have hpos : 0 < ps.countP (fun x => decide (x ≤ w)) :=
    List.countP_pos_iff.mpr ⟨w, hw, decide_eq_true (le_refl w)⟩
  have hle : ps.countP (fun x => decide (x ≤ w)) ≤ ps.length := List.countP_le_length _
  refine ⟨hpos, hle, ?_⟩
  have hc1n : ps.countP (fun x => decide (x ≤ w)) - 1 < ps.length := by omega
  have h1 : (sortedPvals ps).getD (ps.countP (fun x => decide (x ≤ w)) - 1) 0 ≤ w := by
    rw [sorted_getD_le_iff (sortedPvals ps) (sortedPvals_sorted ps) w _
      (by rw [sortedPvals_length]; exact hc1n), hcntS]
    omega
  have hwS : w ∈ sortedPvals ps := (sortedPvals_perm ps).mem_iff.mpr hw
  obtain ⟨m, hm, hmw⟩ := List.getElem_of_mem hwS
  have hmn : m < ps.length := by rw [sortedPvals_length] at hm; exact hm
  have hm_lt : m < ps.countP (fun x => decide (x ≤ w)) := by
    have h3 := (sorted_getD_le_iff (sortedPvals ps) (sortedPvals_sorted ps) w m
      (by rw [sortedPvals_length]; exact hmn)).mp
      (by rw [List.getD_eq_getElem _ _ hm, hmw])
    rwa [hcntS] at h3
  have h2 : w ≤ (sortedPvals ps).getD (ps.countP (fun x => decide (x ≤ w)) - 1) 0 := by
    have h4 := sortedPvals_mono ps m (ps.countP (fun x => decide (x ≤ w)) - 1)
      (by omega) hc1n
    rwa [List.getD_eq_getElem _ _ hm, hmw] at h4
  exact le_antisymm h1 h2

theorem rank_lt_countP (ps : List ℚ) (i : ℕ) (hi : i < ps.length) :
    i < ps.countP (fun x => decide (x ≤ (sortedPvals ps).getD i 0)) := by
  have h := (sorted_getD_le_iff (sortedPvals ps) (sortedPvals_sorted ps)
    ((sortedPvals ps).getD i 0) i (by rw [sortedPvals_length]; exact hi)).mp (le_refl _)
  rwa [(sortedPvals_perm ps).countP_eq] at h

/-! ### Value-level characterization of the sorted q-values -/

theorem clampedQ_eq_bhQ (ps : List ℚ) (i : ℕ) (hi : i < ps.length)
    (hnn : ∀ v ∈ ps, 0 ≤ v) :
    (clampedQ ps).getD i 0 = bhQ ps ((sortedPvals ps).getD i 0) := by
  have hlenraw := rawCorrected_length ps
  refine le_antisymm ?_ ?_
  · rw [bhQ]
    refine le_foldr_min _ _ _ ?_ ?_
    · rw [clampedQ_getD _ _ hi]
      split_ifs with h1
      · exact le_refl 1
      · exact le_of_not_lt h1
    · intro y hy
      simp only [List.mem_map, List.mem_filter] at hy
      obtain ⟨w0, ⟨hwps, hvw⟩, rfl⟩ := hy
      have hvw' : (sortedPvals ps).getD i 0 ≤ w0 := of_decide_eq_true hvw
      obtain ⟨hpos, hle, hblock⟩ := sorted_block_end ps w0 hwps
      have hcnt_mono : ps.countP (fun x => decide (x ≤ (sortedPvals ps).getD i 0)) ≤
          ps.countP (fun x => decide (x ≤ w0)) := by
        refine List.countP_mono_left ?_
        intro x hx hxv
        exact decide_eq_true (le_trans (of_decide_eq_true hxv) hvw')
      have hik : i < ps.countP (fun x => decide (x ≤ w0)) :=
        Nat.lt_of_lt_of_le (rank_lt_countP ps i hi) hcnt_mono
      have hc1n : ps.countP (fun x => decide (x ≤ w0)) - 1 < ps.length := by omega
      have hraw : (rawCorrected ps).getD (ps.countP (fun x => decide (x ≤ w0)) - 1) 0 =
          w0 * (ps.length : ℚ) / ((ps.countP (fun x => decide (x ≤ w0)) : ℕ) : ℚ) := by
        rw [rawCorrected_getD _ _ hc1n, hblock]
        have hcast : ((ps.countP (fun x => decide (x ≤ w0)) - 1 : ℕ) : ℚ) + 1 =
            ((ps.countP (fun x => decide (x ≤ w0)) : ℕ) : ℚ) := by
          have h1 : (ps.countP (fun x => decide (x ≤ w0)) - 1) + 1 =
              ps.countP (fun x => decide (x ≤ w0)) := Nat.succ_pred_eq_of_pos hpos
          exact_mod_cast h1
        rw [hcast, div_div_eq_mul_div]
      calc (clampedQ ps).getD i 0
          ≤ ((minAccum (rawCorrected ps).reverse).reverse).getD i 0 := by
            rw [clampedQ_getD _ _ hi]
            split_ifs with h1
            · linarith
            · exact le_refl _
        _ ≤ (rawCorrected ps).getD (ps.countP (fun x => decide (x ≤ w0)) - 1) 0 :=
            revMinAccum_le _ i _ (by omega) (by rw [hlenraw]; exact hc1n)
        _ = w0 * (ps.length : ℚ) / ((ps.countP (fun x => decide (x ≤ w0)) : ℕ) : ℚ) := hraw
  · rw [clampedQ_getD _ _ hi]
    split_ifs with h1
    · rw [bhQ]
      exact foldr_min_le_base _ _
    · rw [bhQ]
      obtain ⟨j, hij, hjn, hjeq⟩ := revMinAccum_attained (rawCorrected ps) i
        (by rw [hlenraw]; exact hi)
      rw [hjeq]
      have hjn' : j < ps.length := by rw [hlenraw] at hjn; exact hjn
      have hwps : (sortedPvals ps).getD j 0 ∈ ps := by
        have hmem : (sortedPvals ps).getD j 0 ∈ sortedPvals ps := by
          rw [List.getD_eq_getElem _ _ (by rw [sortedPvals_length]; exact hjn')]
          exact List.getElem_mem _
        exact (sortedPvals_perm ps).mem_iff.mp hmem
      have hvw : (sortedPvals ps).getD i 0 ≤ (sortedPvals ps).getD j 0 :=
        sortedPvals_mono ps i j hij hjn'
      have hwmem : (sortedPvals ps).getD j 0 * (ps.length : ℚ) /
            ((ps.countP (fun x => decide (x ≤ (sortedPvals ps).getD j 0)) : ℕ) : ℚ) ∈
          (ps.filter (fun w => decide ((sortedPvals ps).getD i 0 ≤ w))).map
            (fun w => w * (ps.length : ℚ) /
              ((ps.countP (fun x => decide (x ≤ w)) : ℕ) : ℚ)) := by
        refine List.mem_map.mpr ⟨(sortedPvals ps).getD j 0, ?_, rfl⟩
        exact List.mem_filter.mpr ⟨hwps, decide_eq_true hvw⟩
      refine le_trans (foldr_min_le_mem _ _ _ hwmem) ?_
      rw [rawCorrected_getD _ _ hjn', div_div_eq_mul_div]
      have hjc : j + 1 ≤ ps.countP (fun x => decide (x ≤ (sortedPvals ps).getD j 0)) := by
        have h3 := (sorted_getD_le_iff (sortedPvals ps) (sortedPvals_sorted ps)
          ((sortedPvals ps).getD j 0) j (by rw [sortedPvals_length]; exact hjn')).mp
          (le_refl _)
        rw [(sortedPvals_perm ps).countP_eq] at h3
        omega
      have hwnn : 0 ≤ (sortedPvals ps).getD j 0 := hnn _ hwps
      have hj1pos : (0 : ℚ) < (j : ℚ) + 1 := by positivity
      have hcpos : (0 : ℚ) <
          ((ps.countP (fun x => decide (x ≤ (sortedPvals ps).getD j 0)) : ℕ) : ℚ) := by
        have : 0 < ps.countP (fun x => decide (x ≤ (sortedPvals ps).getD j 0)) := by omega
        exact_mod_cast this
      rw [div_le_div_iff₀ hcpos hj1pos]
      have hcast : ((j : ℚ) + 1) ≤
          ((ps.countP (fun x => decide (x ≤ (sortedPvals ps).getD j 0)) : ℕ) : ℚ) := by
        exact_mod_cast hjc
      have hwn : 0 ≤ (sortedPvals ps).getD j 0 * (ps.length : ℚ) :=
        mul_nonneg hwnn (by positivity)
      exact mul_le_mul_of_nonneg_left hcast hwn

theorem stepUpReject_eq_bhRej (ps : List ℚ) (alpha : ℚ) (i : ℕ) (hi : i < ps.length)
    (halpha : 0 ≤ alpha) :
    (stepUpReject ps alpha).getD i false = bhRej ps alpha ((sortedPvals ps).getD i 0) := by
  have hn : 0 < ps.length := by omega
  have hnq : (0 : ℚ) < (ps.length : ℚ) := by exact_mod_cast hn
  rw [Bool.eq_iff_iff, stepUpReject_iff _ _ _ hi, bhRej, List.any_eq_true]
  constructor
  · rintro ⟨j, hij, hjn, hj⟩
    rw [provisionalReject_getD _ _ _ hjn] at hj
    have hprov : (sortedPvals ps).getD j 0 ≤ (((j : ℚ) + 1) / (ps.length : ℚ)) * alpha :=
      of_decide_eq_true hj
    refine ⟨(sortedPvals ps).getD j 0, ?_, ?_⟩
    · have hmem : (sortedPvals ps).getD j 0 ∈ sortedPvals ps := by
        rw [List.getD_eq_getElem _ _ (by rw [sortedPvals_length]; exact hjn)]
        exact List.getElem_mem _
      exact (sortedPvals_perm ps).mem_iff.mp hmem
    · rw [Bool.and_eq_true]
      refine ⟨decide_eq_true (sortedPvals_mono ps i j hij hjn), decide_eq_true ?_⟩
      have hjc : j + 1 ≤ ps.countP (fun x => decide (x ≤ (sortedPvals ps).getD j 0)) := by
        have h3 := (sorted_getD_le_iff (sortedPvals ps) (sortedPvals_sorted ps)
          ((sortedPvals ps).getD j 0) j (by rw [sortedPvals_length]; exact hjn)).mp
          (le_refl _)
        rw [(sortedPvals_perm ps).countP_eq] at h3
        omega
      have h1 : (sortedPvals ps).getD j 0 * (ps.length : ℚ) ≤ ((j : ℚ) + 1) * alpha := by
        calc (sortedPvals ps).getD j 0 * (ps.length : ℚ)
            ≤ ((((j : ℚ) + 1) / (ps.length : ℚ)) * alpha) * (ps.length : ℚ) :=
              mul_le_mul_of_nonneg_right hprov (le_of_lt hnq)
          _ = ((j : ℚ) + 1) * alpha := by field_simp
      have h2 : ((j : ℚ) + 1) * alpha ≤
          ((ps.countP (fun x => decide (x ≤ (sortedPvals ps).getD j 0)) : ℕ) : ℚ) * alpha :=
        mul_le_mul_of_nonneg_right (by exact_mod_cast hjc) halpha
      exact le_trans h1 h2
  · rintro ⟨w0, hw0, hcond⟩
    rw [Bool.and_eq_true] at hcond
    obtain ⟨hvw, hwt⟩ := hcond
    have hvw' : (sortedPvals ps).getD i 0 ≤ w0 := of_decide_eq_true hvw
    have hwt' : w0 * (ps.length : ℚ) ≤
        ((ps.countP (fun x => decide (x ≤ w0)) : ℕ) : ℚ) * alpha := of_decide_eq_true hwt
    obtain ⟨hpos, hle, hblock⟩ := sorted_block_end ps w0 hw0
    have hcnt_mono : ps.countP (fun x => decide (x ≤ (sortedPvals ps).getD i 0)) ≤
        ps.countP (fun x => decide (x ≤ w0)) := by
      refine List.countP_mono_left ?_
      intro x hx hxv
      exact decide_eq_true (le_trans (of_decide_eq_true hxv) hvw')
    have hik : i < ps.countP (fun x => decide (x ≤ w0)) :=
      Nat.lt_of_lt_of_le (rank_lt_countP ps i hi) hcnt_mono
    refine ⟨ps.countP (fun x => decide (x ≤ w0)) - 1, by omega, by omega, ?_⟩
    rw [provisionalReject_getD _ _ _ (by omega)]
    refine decide_eq_true ?_
    rw [hblock]
    have hcast : ((ps.countP (fun x => decide (x ≤ w0)) - 1 : ℕ) : ℚ) + 1 =
        ((ps.countP (fun x => decide (x ≤ w0)) : ℕ) : ℚ) := by
      have h1 : (ps.countP (fun x => decide (x ≤ w0)) - 1) + 1 =
          ps.countP (fun x => decide (x ≤ w0)) := Nat.succ_pred_eq_of_pos hpos
      exact_mod_cast h1
    rw [hcast, div_mul_eq_mul_div, le_div_iff₀ hnq]
    exact hwt'

/-! ### Output-level characterization and permutation invariance -/

theorem fdr_q_eq_bhQ (ps : List ℚ) (alpha : ℚ) (idx : ℕ) (hidx : idx < ps.length)
    (hnn : ∀ v ∈ ps, 0 ≤ v) :
    (fdrcorrection ps alpha).2.getD idx 0 = bhQ ps (ps.getD idx 0) := by
  have hmem : idx ∈ argsort ps :=
    (argsort_perm_range ps).mem_iff.mpr (List.mem_range.mpr hidx)
  obtain ⟨i, hi, hidx_eq⟩ := List.getElem_of_mem hmem
  rw [argsort_length] at hi
  have hgetD : (argsort ps).getD i 0 = idx := by
    rw [List.getD_eq_getElem _ _ (by rw [argsort_length]; exact hi)]
    exact hidx_eq
  rw [← hgetD, fdr_q_at_sorted _ _ i hi, clampedQ_eq_bhQ ps i hi hnn,
    sortedPvals_getD _ _ hi, hgetD]

theorem fdr_rej_eq_bhRej (ps : List ℚ) (alpha : ℚ) (idx : ℕ) (hidx : idx < ps.length)
    (halpha : 0 ≤ alpha) :
    (fdrcorrection ps alpha).1.getD idx false = bhRej ps alpha (ps.getD idx 0) := by
  have hmem : idx ∈ argsort ps :=
    (argsort_perm_range ps).mem_iff.mpr (List.mem_range.mpr hidx)
  obtain ⟨i, hi, hidx_eq⟩ := List.getElem_of_mem hmem
  rw [argsort_length] at hi
  have hgetD : (argsort ps).getD i 0 = idx := by
    rw [List.getD_eq_getElem _ _ (by rw [argsort_length]; exact hi)]
    exact hidx_eq
  rw [← hgetD, fdr_rej_at_sorted _ _ i hi, stepUpReject_eq_bhRej ps alpha i hi halpha,
    sortedPvals_getD _ _ hi, hgetD]

theorem bhQ_perm {ps ps' : List ℚ} (h : ps.Perm ps') (v : ℚ) : bhQ ps v = bhQ ps' v := by
  rw [bhQ, bhQ]
  have hfun : (fun w => w * (ps.length : ℚ) /
        ((ps.countP (fun x => decide (x ≤ w)) : ℕ) : ℚ)) =
      (fun w => w * (ps'.length : ℚ) /
        ((ps'.countP (fun x => decide (x ≤ w)) : ℕ) : ℚ)) := by
    funext w
    rw [h.length_eq, h.countP_eq]
  rw [hfun]
  exact foldr_min_perm ((h.filter _).map _) 1

theorem bhRej_perm {ps ps' : List ℚ} (h : ps.Perm ps') (alpha v : ℚ) :
    bhRej ps alpha v = bhRej ps' alpha v := by
  rw [Bool.eq_iff_iff, bhRej, bhRej, List.any_eq_true, List.any_eq_true]
  constructor <;> rintro ⟨w, hw, hcond⟩
  · refine ⟨w, h.mem_iff.mp hw, ?_⟩
    rwa [h.length_eq, h.countP_eq] at hcond
  · refine ⟨w, h.mem_iff.mpr hw, ?_⟩
    rwa [← h.length_eq, ← h.countP_eq] at hcond

/-! ### Claim C4 -/

/-- Claim C4: applying Benjamini-Hochberg to a p-value array and to any
permutation of it (`ps'` reading `ps` through the index permutation `pi` of
`range n`) yields identical q-values and reject flags after re-aligning by
original index, for valid inputs (non-negative p-values, non-negative alpha),
tied p-values included. -/
theorem c4_bh_order_invariance (ps : List ℚ) (alpha : ℚ) (pi : ℕ → ℕ) (ps' : List ℚ)
    (hps' : ps' = (List.range ps.length).map (fun i => ps.getD (pi i) 0))
    (hpi : ((List.range ps.length).map pi).Perm (List.range ps.length))
    (hnn : ∀ v ∈ ps, 0 ≤ v) (halpha : 0 ≤ alpha) :
    ∀ i, i < ps.length →
      (fdrcorrection ps' alpha).2.getD i 0 = (fdrcorrection ps alpha).2.getD (pi i) 0 ∧
      (fdrcorrection ps' alpha).1.getD i false =
        (fdrcorrection ps alpha).1.getD (pi i) false := by
  subst hps'
  have hlen' : ((List.range ps.length).map (fun i => ps.getD (pi i) 0)).length =
      ps.length := by simp
  have hperm : ((List.range ps.length).map (fun i => ps.getD (pi i) 0)).Perm ps := by
    have h1 : (List.range ps.length).map (fun i => ps.getD (pi i) 0) =
        ((List.range ps.length).map pi).map (fun j => ps.getD j 0) := by
      rw [List.map_map]
      rfl
    rw [h1]
    have h2 := hpi.map (fun j => ps.getD j 0)
    rw [range_map_getD] at h2
    exact h2
  have hpii : ∀ i, i < ps.length → pi i < ps.length := by
    intro i hi
    have h3 : pi i ∈ (List.range ps.length).map pi :=
      List.mem_map.mpr ⟨i, List.mem_range.mpr hi, rfl⟩
    exact List.mem_range.mp (hpi.mem_iff.mp h3)
  have hval : ∀ i, i < ps.length →
      ((List.range ps.length).map (fun i => ps.getD (pi i) 0)).getD i 0 =
        ps.getD (pi i) 0 := by
    intro i hi
    rw [getD_map_of_lt _ _ (by simpa using hi) _ 0,
      show (List.range ps.length).getD i 0 = i from by
        rw [List.getD_eq_getElem _ _ (by simpa using hi), List.getElem_range]]
  have hnn' : ∀ v ∈ (List.range ps.length).map (fun i => ps.getD (pi i) 0), 0 ≤ v :=
    fun v hv => hnn v (hperm.mem_iff.mp hv)
  intro i hi
  constructor
  · rw [fdr_q_eq_bhQ _ alpha i (by rw [hlen']; exact hi) hnn',
      fdr_q_eq_bhQ ps alpha (pi i) (hpii i hi) hnn, hval i hi, bhQ_perm hperm]
  · rw [fdr_rej_eq_bhRej _ alpha i (by rw [hlen']; exact hi) halpha,
      fdr_rej_eq_bhRej ps alpha (pi i) (hpii i hi) halpha, hval i hi, bhRej_perm hperm]

/-- Witness for C4: reversing `[5/10, 3/100, 4/100]` and re-aligning index
`0` with index `2` gives identical q-value and reject flag. -/
theorem c4_bh_order_invariance_witness :
    (fdrcorrection [4/100, 3/100, 5/10] (1/20)).2.getD 0 0 =
      (fdrcorrection [5/10, 3/100, 4/100] (1/20)).2.getD 2 0 ∧
    (fdrcorrection [4/100, 3/100, 5/10] (1/20)).1.getD 0 false =
      (fdrcorrection [5/10, 3/100, 4/100] (1/20)).1.getD 2 false := by
  have h := c4_bh_order_invariance [5/10, 3/100, 4/100] (1/20) (fun i => 2 - i)
    [4/100, 3/100, 5/10] (by rfl)
    (by
      have he : ((List.range ([5/10, 3/100, 4/100] : List ℚ).length).map
          (fun i => 2 - i)) = [2, 1, 0] := by rfl
      rw [he]
      exact List.reverse_perm [0, 1, 2])
    (by
      intro v hv
      simp only [List.mem_cons, List.not_mem_nil, or_false] at hv
      rcases hv with rfl | rfl | rfl <;> norm_num)
    (by norm_num) 0 (by norm_num)
  exact h

end GseapyStats
